import Mathlib

/-!
A shallow embedding of `flacjack.go` (flacjack, a FLAC to MP3 converter).

Go strings are byte sequences; they are modelled as lists of byte values
(`Nat`).  Slicing, `len`, `strings.Split`, `strings.Replace`, `filepath.Ext`,
`path.Clean`, `path.Join`, `path.Dir` and `path.Base` all work on bytes, as in
the Go standard library (Unix path separator).

Functions that can panic (slice or index out of range) return `Option`;
`none` is the panic.  Effects on the outside world (channels, external
commands, the filesystem) are explicit: a function returns the list of
actions it performed and the filesystem it leaves behind; the outcomes of
external commands are inputs (`Env`).
-/

set_option autoImplicit false

namespace Flacjack

/-! ## Go strings -/

/-- A Go string: a sequence of bytes. -/
abbrev GoString := List Nat

/-- The bytes of an ASCII literal. -/
def ascii (s : String) : GoString := s.toList.map Char.toNat

/-- The byte `/`. -/
def bSlash : Nat := 47
/-- The byte `.`. -/
def bDot : Nat := 46
/-- The byte `=`. -/
def bEq : Nat := 61
/-- The byte `"`. -/
def bDQuote : Nat := 34
/-- The single-quote byte. -/
def bSQuote : Nat := 39
/-- The space byte. -/
def bSpace : Nat := 32

/-- Go slice expression `s[a:b]`; panics unless `a ≤ b ≤ len(s)`. -/
def slice (s : GoString) (a b : Nat) : Option GoString :=
  if a ≤ b ∧ b ≤ s.length then some ((s.take b).drop a) else none

/-- Loop of `filepath.Ext`, run over the reversed path: `acc` is `path[i+1:]`.
`for i := len(path)-1; i >= 0 && path[i] != '/'; i-- { if path[i] == '.' { return path[i:] } }` -/
def extScan : List Nat → GoString → GoString
  | [], _ => []
  | c :: rest, acc =>
    if c = bSlash then []
    else if c = bDot then c :: acc
    else extScan rest (c :: acc)

/-- Go `filepath.Ext` (Unix): the suffix beginning at the final dot of the
final path element, empty if there is no dot. -/
def Ext (path : GoString) : GoString := extScan path.reverse []

/-- The inner loop of the `..` case of `path.Clean`, after `out.w--`:
`for out.w > dotdot && out.index(out.w) != '/' { out.w-- }`. -/
def backtrack (out : GoString) (dotdot : Nat) : Nat → Nat
  | 0 => 0
  | w + 1 =>
    if w + 1 > dotdot ∧ out.getD (w + 1) 0 ≠ bSlash then backtrack out dotdot w else w + 1

/-- Main loop of `path.Clean`: `r` is the index of the next byte to read,
`out` the bytes written so far (`out.length` is `out.w`), `dotdot` the index
where `..` must stop.  The first argument bounds the number of iterations;
every iteration advances `r`, so `path.length - r` iterations suffice. -/
def cleanLoop (path : GoString) (rooted : Bool) : Nat → Nat → GoString → Nat → GoString
  | 0, _, out, _ => out
  | fuel + 1, r, out, dotdot =>
    let n := path.length
    if r < n then
      if path.getD r 0 = bSlash then
        cleanLoop path rooted fuel (r + 1) out dotdot
      else if path.getD r 0 = bDot ∧ (r + 1 = n ∨ path.getD (r + 1) 0 = bSlash) then
        cleanLoop path rooted fuel (r + 1) out dotdot
      else if path.getD r 0 = bDot ∧ path.getD (r + 1) 0 = bDot ∧
          (r + 2 = n ∨ path.getD (r + 2) 0 = bSlash) then
        if out.length > dotdot then
          cleanLoop path rooted fuel (r + 2)
            (out.take (backtrack out dotdot (out.length - 1))) dotdot
        else if !rooted then
          let out1 := if out.length > 0 then out ++ [bSlash] else out
          let out2 := out1 ++ [bDot, bDot]
          cleanLoop path rooted fuel (r + 2) out2 out2.length
        else
          cleanLoop path rooted fuel (r + 2) out dotdot
      else
        let out1 :=
          if (rooted = true ∧ out.length ≠ 1) ∨ (rooted = false ∧ out.length ≠ 0)
          then out ++ [bSlash] else out
        let elem := (path.drop r).takeWhile (fun c => decide (c ≠ bSlash))
        cleanLoop path rooted fuel (r + elem.length) (out1 ++ elem) dotdot
    else out

/-- Go `path.Clean`. -/
def Clean (path : GoString) : GoString :=
  if path = [] then [bDot]
  else
    let rooted := decide (path.getD 0 0 = bSlash)
    let out := cleanLoop path rooted path.length (if rooted then 1 else 0)
      (if rooted then [bSlash] else []) (if rooted then 1 else 0)
    if out.length = 0 then [bDot] else out

/-- The buffer built by `path.Join`: the non-empty-so-far elements separated
by `/`. -/
def joinBuf : List GoString → GoString → GoString
  | [], buf => buf
  | e :: rest, buf =>
    if buf.length > 0 ∨ e ≠ [] then
      joinBuf rest ((if buf.length > 0 then buf ++ [bSlash] else buf) ++ e)
    else joinBuf rest buf

/-- Go `path.Join`. -/
def Join (elems : List GoString) : GoString :=
  if (elems.map List.length).sum = 0 then [] else Clean (joinBuf elems [])

/-- Index of the last `/` in `s`, plus one (0 if there is none):
`bytealg.LastIndexByteString(s, '/') + 1`. -/
def lastSlashEnd (s : GoString) : Nat :=
  s.length - (s.reverse.takeWhile (fun c => decide (c ≠ bSlash))).length

/-- Go `path.Dir`: `Clean` of everything up to and including the final slash. -/
def Dir (path : GoString) : GoString := Clean (path.take (lastSlashEnd path))

/-- Strip trailing slashes (first loop of `path.Base`). -/
def stripTrailingSlashes (s : GoString) : GoString :=
  (s.reverse.dropWhile (fun c => decide (c = bSlash))).reverse

/-- Go `path.Base`. -/
def Base (path : GoString) : GoString :=
  if path = [] then [bDot]
  else
    let p1 := stripTrailingSlashes path
    let p2 := p1.drop (lastSlashEnd p1)
    if p2 = [] then [bSlash] else p2

/-- ASCII branch of `strings.ToLower`: `c += 'a' - 'A'` for `'A' ≤ c ≤ 'Z'`. -/
def lowerByte (c : Nat) : Nat := if 65 ≤ c ∧ c ≤ 90 then c + 32 else c

/-- Go `strings.ToLower`.  A string of ASCII bytes is lowered byte by byte;
any other string goes through `strings.Map(unicode.ToLower, s)`, which is the
parameter `uni`. -/
def ToLower (uni : GoString → GoString) (s : GoString) : GoString :=
  if s.all (fun c => decide (c < 128)) then s.map lowerByte else uni s

/-- Go `strings.Replace(s, "\"", "'", -1)`: every double quote becomes a
single quote. -/
def replaceQuotes (s : GoString) : GoString :=
  s.map (fun c => if c = bDQuote then bSQuote else c)

/-- Go `strings.Split(s, "=")` for the one-byte separator `sep`. -/
def Split (sep : Nat) : GoString → List GoString
  | [] => [[]]
  | c :: cs =>
    if c = sep then [] :: Split sep cs
    else
      match Split sep cs with
      | [] => [[c]]
      | h :: t => (c :: h) :: t

/-! ## Configuration and destination names -/

/-- The two command-line flags, read through the globals `inputpath` and
`outputpath`. -/
structure Config where
  inputpath : GoString
  outputpath : GoString

/-- Source function `mp3name`:
`ofile := fn[len(*inputpath):len(fn)-len(ext)] + ".mp3"`, then
`path.Join(*outputpath, ofile)`. -/
def mp3name (cfg : Config) (fn : GoString) : Option GoString :=
  let ext := Ext fn
  match slice fn cfg.inputpath.length (fn.length - ext.length) with
  | none => none
  | some s => some (Join [cfg.outputpath, s ++ ascii ".mp3"])

/-! ## Tags, errors, filesystem -/

/-- A Go `error` value that is not nil, identified by its `Error()` text. -/
abbrev GoError := GoString

/-- A Go `map[string]string`, as an association list with distinct keys. -/
abbrev Tags := List (GoString × GoString)

/-- Lookup of a key. -/
def tagFind : Tags → GoString → Option GoString
  | [], _ => none
  | (k, v) :: rest, key => if k = key then some v else tagFind rest key

/-- Go `tags[key]`: the zero value `""` for an absent key. -/
def tagGet (m : Tags) (key : GoString) : GoString :=
  match tagFind m key with
  | some v => v
  | none => []

/-- Go `tags[key] = value`. -/
def tagSet (m : Tags) (key value : GoString) : Tags :=
  m.filter (fun kv => decide (kv.1 ≠ key)) ++ [(key, value)]

/-- The filesystem: the paths of the regular files and of the directories
that exist.  The directories `/` and `.` always exist. -/
structure FS where
  files : List GoString
  dirs : List GoString
  deriving DecidableEq

/-- Whether `p` is an existing directory. -/
def FS.isDir (fs : FS) (p : GoString) : Bool :=
  decide (p = [bSlash] ∨ p = [bDot] ∨ p ∈ fs.dirs)

/-- The proper ancestors of a (cleaned) path: what precedes each slash that is
not the first byte. -/
def ancestors (p : GoString) : List GoString :=
  ((List.range p.length).filter
    (fun i => decide (0 < i ∧ p.getD i 0 = bSlash))).map (fun i => p.take i)

/-- The three ways `os.Stat` can end. -/
inductive StatResult
  | found
  | notExist
  | otherError
  deriving DecidableEq

/-- The call `os.Stat(p)`: ENOTDIR (an error that `os.IsNotExist` rejects) when
an ancestor of `p` is a regular file, success when `p` exists, ENOENT
otherwise. -/
def Stat (fs : FS) (p : GoString) : StatResult :=
  if (ancestors p).any (fun a => decide (a ∈ fs.files)) then StatResult.otherError
  else if p ∈ fs.files ∨ fs.isDir p = true then StatResult.found
  else StatResult.notExist

/-- The error text of a failed `os.MkdirAll`. -/
def mkdirError (p : GoString) : GoError := ascii "mkdir " ++ p ++ ascii ": not a directory"

/-- The call `os.MkdirAll(p, 0755)`: nothing to do when `p` is a directory, an
error when `p` or one of its ancestors is a regular file, otherwise `p` and
its missing ancestors become directories. -/
def MkdirAll (fs : FS) (p : GoString) : Except GoError FS :=
  if fs.isDir p = true then Except.ok fs
  else if p ∈ fs.files ∨ (ancestors p).any (fun a => decide (a ∈ fs.files)) = true then
    Except.error (mkdirError p)
  else
    Except.ok { fs with
      dirs := fs.dirs ++ (ancestors p ++ [p]).filter (fun a => !fs.isDir a) }

/-- A regular file comes to exist at `p` (created, or overwritten). -/
def FS.create (fs : FS) (p : GoString) : FS :=
  if p ∈ fs.files then fs else { fs with files := fs.files ++ [p] }

/-- The call `os.Remove(p)` on a regular file. -/
def FS.remove (fs : FS) (p : GoString) : FS :=
  { fs with files := fs.files.filter (fun f => decide (f ≠ p)) }

/-! ## Progress values and the actions of a goroutine -/

/-- Source struct `Progress`. -/
structure Progress where
  gortn : Nat
  file : GoString
  dest : GoString
  stage : GoString
  err : Option GoError
  deriving DecidableEq

/-- The zero value `new(Progress)`. -/
def Progress.zero : Progress := ⟨0, [], [], [], none⟩

/-- The three stage functions. -/
inductive Stage
  | tags
  | decode
  | encode
  deriving DecidableEq

/-- What a goroutine does that others can see, in program order. -/
inductive Action
  /-- `outputch <- p` -/
  | send (p : Progress)
  /-- `donech <- 1` -/
  | done
  /-- entry into `flacTags`, `decodeFlac` or `encodeMp3` -/
  | call (s : Stage)
  /-- `cmd.Start()` of an external command with this argument vector -/
  | exec (argv : List GoString)
  deriving DecidableEq

/-- The outcomes, for one work item, of everything outside the program. -/
structure Env where
  /-- `cmd.StdoutPipe()` failed (the code overwrites that error) -/
  pipeFails : Bool
  /-- error of `cmd.Start()` for metaflac -/
  metaflacStart : Option GoError
  /-- the lines the scanner yields from metaflac -/
  metaflacOut : List GoString
  /-- error of `cmd.Wait()` for metaflac -/
  metaflacWait : Option GoError
  /-- result of `ioutil.TempFile("", "cnv")`: the name of the created file -/
  tempFile : Except GoError GoString
  /-- error of `cmd.Start()` for flac -/
  flacStart : Option GoError
  /-- error of `cmd.Wait()` for flac -/
  flacWait : Option GoError
  /-- error of `cmd.Start()` for lame -/
  lameStart : Option GoError
  /-- error of `cmd.Wait()` for lame -/
  lameWait : Option GoError
  /-- whether a started lame leaves a file at its output path -/
  lameOutput : Bool

/-! ## The stages -/

/-- The scanner loop of `flacTags`; `none` is the index-out-of-range panic of
`tag[1]` on a line without `=`. -/
def tagLoop (uni : GoString → GoString) : List GoString → Tags → Option Tags
  | [], tags => some tags
  | text :: rest, tags =>
    let line := replaceQuotes text
    let tag := Split bEq line
    let key := ToLower uni (tag.getD 0 [])
    match tag.get? 1 with
    | none => none
    | some value => tagLoop uni rest (tagSet tags key value)

/-- The argument vector of the metaflac command. -/
def metaflacArgv (flacfile : GoString) : List GoString :=
  [ascii "metaflac", ascii "--export-tags-to=-", ascii "--no-utf8-convert", flacfile]

/-- Source function `flacTags`.  Returns the map and the error; `none` is a
panic (a nil pipe is read, or a line has no `=`). -/
def flacTags (uni : GoString → GoString) (env : Env) (flacfile : GoString) :
    Option ((Tags × Option GoError) × List Action) :=
  let tr := [Action.exec (metaflacArgv flacfile)]
  match env.metaflacStart with
  | some e => some (([], some e), tr)
  | none =>
    if env.pipeFails then none
    else
      match tagLoop uni env.metaflacOut [] with
      | none => none
      | some tags => some ((tags, env.metaflacWait), tr)

/-- The argument vector of the flac command. -/
def flacArgv (fn ofile : GoString) : List GoString :=
  [ascii "flac", ascii "-f", ascii "-d", fn, ascii "-o", ofile]

/-- Source function `decodeFlac`: the name of the wav file and the error, the
filesystem afterwards and the commands started. -/
def decodeFlac (env : Env) (fs : FS) (fn : GoString) :
    (GoString × Option GoError) × FS × List Action :=
  match env.tempFile with
  | Except.error e => (([], some e), fs, [])
  | Except.ok name =>
    let fs1 := fs.create name
    let tr := [Action.exec (flacArgv fn name)]
    match env.flacStart with
    | some e => (([], some e), fs1.remove name, tr)
    | none =>
      match env.flacWait with
      | some e => (([], some e), fs1.remove name, tr)
      | none => ((name, none), fs1, tr)

/-- The array `requiredTags` of `encodeMp3`. -/
def requiredTags : List GoString :=
  [ascii "artist", ascii "title", ascii "genre", ascii "album", ascii "tracknumber",
   ascii "date"]

/-- The error `fmt.Errorf("Required tag %v missing on %v", tag, inf)`. -/
def missingTagError (tag inf : GoString) : GoError :=
  ascii "Required tag " ++ tag ++ ascii " missing on " ++ inf

/-- The loop over `requiredTags` in `encodeMp3`: the error of the first tag
whose value has length 0. -/
def checkTags (tags : Tags) (inf : GoString) : List GoString → Option GoError
  | [] => none
  | tag :: rest =>
    if (tagGet tags tag).length = 0 then some (missingTagError tag inf)
    else checkTags tags inf rest

/-- The argument vector of the lame command. -/
def lameArgv (inf outf : GoString) (tags : Tags) : List GoString :=
  [ascii "lame", ascii "-q", ascii "2", ascii "--vbr-new",
   ascii "-b", ascii "192", ascii "-B", ascii "320", ascii "--preset", ascii "extreme",
   ascii "--ta", tagGet tags (ascii "artist"),
   ascii "--tt", tagGet tags (ascii "title"),
   ascii "--tg", tagGet tags (ascii "genre"),
   ascii "--tl", tagGet tags (ascii "album"),
   ascii "--tn", tagGet tags (ascii "tracknumber"),
   ascii "--ty", tagGet tags (ascii "date"),
   inf, outf]

/-- Source function `encodeMp3`: the error, the filesystem afterwards and the
commands started. -/
def encodeMp3 (env : Env) (fs : FS) (inf outf : GoString) (tags : Tags) :
    Option GoError × FS × List Action :=
  let outdir := Dir outf
  match MkdirAll fs outdir with
  | Except.error e => (some e, fs, [])
  | Except.ok fs1 =>
    match checkTags tags inf requiredTags with
    | some e => (some e, fs1, [])
    | none =>
      let tr := [Action.exec (lameArgv inf outf tags)]
      match env.lameStart with
      | some e => (some e, fs1, tr)
      | none => (env.lameWait, if env.lameOutput then fs1.create outf else fs1, tr)

/-! ## The conversion pipeline and the workers -/

/-- Source function `convertFile`: the actions performed and the filesystem
left behind; `none` when `mp3name` or `flacTags` panics. -/
def convertFile (uni : GoString → GoString) (cfg : Config) (env : Env) (fs : FS)
    (ix : Nat) (fn : GoString) : Option (List Action × FS) :=
  match mp3name cfg fn with
  | none => none
  | some dest =>
    let prog1 : Progress := ⟨ix, fn, dest, ascii "Extracting tags", none⟩
    match flacTags uni env fn with
    | none => none
    | some ((_, some e), tr1) =>
      some ([Action.send prog1, Action.call Stage.tags] ++ tr1 ++
        [Action.send { prog1 with err := some e }], fs)
    | some ((tags, none), tr1) =>
      let prog2 : Progress := { prog1 with stage := ascii "Decode FLAC" }
      match decodeFlac env fs fn with
      | ((_, some e), fs2, tr2) =>
        some ([Action.send prog1, Action.call Stage.tags] ++ tr1 ++
          [Action.send prog2, Action.call Stage.decode] ++ tr2 ++
          [Action.send { prog2 with err := some e }], fs2)
      | ((wavfile, none), fs2, tr2) =>
        let prog3 : Progress := { prog2 with stage := ascii "Encode MP3" }
        match mp3name cfg fn with
        | none => none
        | some outf =>
          match encodeMp3 env fs2 wavfile outf tags with
          | (some e, fs3, tr3) =>
            some ([Action.send prog1, Action.call Stage.tags] ++ tr1 ++
              [Action.send prog2, Action.call Stage.decode] ++ tr2 ++
              [Action.send prog3, Action.call Stage.encode] ++ tr3 ++
              [Action.send { prog3 with err := some e }], fs3.remove wavfile)
          | (none, fs3, tr3) =>
            some ([Action.send prog1, Action.call Stage.tags] ++ tr1 ++
              [Action.send prog2, Action.call Stage.decode] ++ tr2 ++
              [Action.send prog3, Action.call Stage.encode] ++ tr3, fs3.remove wavfile)

/-- The receive loop of `convert`, over the work items the goroutine receives
(each with the outcomes of its external commands) before the channel is
closed.  `log` holds the actions performed so far. -/
def convertLoop (uni : GoString → GoString) (cfg : Config) (ix : Nat) (prog : Progress) :
    List (GoString × Env) → FS → List Action → Option (List Action × FS)
  | [], fs, log => some (log ++ [Action.done], fs)
  | (file, env) :: rest, fs, log =>
    match convertFile uni cfg env fs ix file with
    | none => none
    | some (tr, fs1) => convertLoop uni cfg ix prog rest fs1 (log ++ tr ++ [Action.send prog])

/-- Source function `convert`. -/
def convert (uni : GoString → GoString) (cfg : Config) (ix : Nat)
    (items : List (GoString × Env)) (fs : FS) : Option (List Action × FS) :=
  let prog : Progress := { Progress.zero with gortn := ix }
  convertLoop uni cfg ix prog items fs [Action.send prog]

/-- Source function `walker`: the paths sent on `transch` and the returned
error; `none` when `mp3name` panics.  `isDir` is `info.IsDir()`. -/
def walker (uni : GoString → GoString) (cfg : Config) (fs : FS) (path : GoString)
    (isDir : Bool) (err : Option GoError) : Option (List GoString × Option GoError) :=
  match err with
  | some e => some ([], some e)
  | none =>
    if isDir then some ([], none)
    else
      let ext := Ext path
      if ToLower uni ext ≠ ascii ".flac" then some ([], none)
      else
        match mp3name cfg path with
        | none => none
        | some ofile =>
          if Stat fs ofile = StatResult.notExist then some ([path], none)
          else some ([], none)

/-! ## Rendering -/

/-- Width padding of `fmt` without the minus flag; `rc` is
`utf8.RuneCountInString`. -/
def padLeft (rc : GoString → Nat) (w : Nat) (s : GoString) : GoString :=
  List.replicate (w - rc s) bSpace ++ s

/-- Width padding of `fmt` with the minus flag. -/
def padRight (rc : GoString → Nat) (w : Nat) (s : GoString) : GoString :=
  s ++ List.replicate (w - rc s) bSpace

/-- Decimal digits of an `int` that is not negative. -/
def fmtInt (n : Nat) : GoString := (Nat.toDigits 10 n).map Char.toNat

/-- Source method `Progress.String`. -/
def Progress.String (rc : GoString → Nat) (p : Progress) : GoString :=
  if p.stage.length = 0 then ascii "Idle"
  else
    padRight rc 60 (Base p.file) ++ ascii " \x1b[32m" ++ padLeft rc 15 p.stage ++
      ascii "\x1b[0m"

/-- Source method `Progress.ErrorMsg`. -/
def Progress.ErrorMsg (p : Progress) : GoString :=
  match p.err with
  | none => []
  | some e => p.file ++ ascii " ERROR: " ++ e

/-- First loop of `showProgress`; `out` is what has been written so far. -/
def showErrors : List Progress → GoString → GoString
  | [], out => out
  | prog :: rest, out =>
    if prog.err ≠ none then
      showErrors rest
        (out ++ ascii "\x1b[0K\x1b[31m" ++ prog.ErrorMsg ++ ascii "\x1b[0K\x1b[0m\n")
    else showErrors rest out

/-- Second loop of `showProgress`, at index `ix`. -/
def showStatus (rc : GoString → Nat) : List Progress → Nat → GoString → GoString
  | [], _, out => out
  | prog :: rest, ix, out =>
    showStatus rc rest (ix + 1)
      (out ++ ascii "\x1b[0K" ++ padLeft List.length 2 (fmtInt ix) ++ ascii ": " ++
        prog.String rc ++ ascii "\n")

/-- Source function `showProgress`: the text written to standard output. -/
def showProgress (rc : GoString → Nat) (p : List Progress) : GoString :=
  showStatus rc p 0 (showErrors p (ascii "\x1b[" ++ fmtInt p.length ++ ascii "A\x1b[0G"))

/-! ## Reading a list of actions -/

/-- The progress values sent on `outputch`, in order. -/
def events (tr : List Action) : List Progress :=
  tr.filterMap (fun a => match a with
    | Action.send p => some p
    | _ => none)

/-- The stage functions entered, in order. -/
def calls (tr : List Action) : List Stage :=
  tr.filterMap (fun a => match a with
    | Action.call s => some s
    | _ => none)

/-- The sends and stage entries of a list of actions: the external commands
are left out. -/
def sendsAndCalls (tr : List Action) : List Action :=
  tr.filter (fun a => match a with
    | Action.exec _ => false
    | _ => true)

/-- The encoder was started: some started command is `lame`. -/
def lameStarted (tr : List Action) : Prop :=
  ∃ argv, Action.exec argv ∈ tr ∧ argv.head? = some (ascii "lame")

/-- A tag is missing: absent from the map, or mapped to the empty string. -/
def tagMissing (tags : Tags) (t : GoString) : Prop :=
  tagFind tags t = none ∨ tagFind tags t = some []

/-- Every action of the list is the start of an external command. -/
def onlyExec (tr : List Action) : Prop :=
  ∀ a ∈ tr, ∃ argv, a = Action.exec argv

/-- The first stage of the pipeline for `fn` that returns an error, with that
error: the stages are run in pipeline order, each on what the ones before it
produced, and a stage is run only if those before it succeeded. -/
def firstFailure (uni : GoString → GoString) (cfg : Config) (env : Env) (fs : FS)
    (fn : GoString) : Option (Stage × GoError) :=
  match flacTags uni env fn with
  | none => none
  | some ((_, some e), _) => some (Stage.tags, e)
  | some ((tags, none), _) =>
    match decodeFlac env fs fn with
    | ((_, some e), _, _) => some (Stage.decode, e)
    | ((wavfile, none), fs2, _) =>
      match mp3name cfg fn with
      | none => none
      | some outf =>
        match (encodeMp3 env fs2 wavfile outf tags).1 with
        | some e => some (Stage.encode, e)
        | none => none

/-- The stages of the pipeline up to and including `s`. -/
def stagesThrough : Stage → List Stage
  | Stage.tags => [Stage.tags]
  | Stage.decode => [Stage.tags, Stage.decode]
  | Stage.encode => [Stage.tags, Stage.decode, Stage.encode]

/-- The idle value of slot `ix`: the zero `Progress` with `gortn` set. -/
def idle (ix : Nat) : Progress := ⟨ix, [], [], [], none⟩

/-- The runs of `convertFile` on the items a worker receives, in order, each
on the filesystem the one before it left: the actions of each run, and the
filesystem after the last. -/
def runItems (uni : GoString → GoString) (cfg : Config) (ix : Nat) :
    List (GoString × Env) → FS → Option (List (List Action) × FS)
  | [], fs => some ([], fs)
  | (file, env) :: rest, fs =>
    match convertFile uni cfg env fs ix file with
    | none => none
    | some (tr, fs1) =>
      match runItems uni cfg ix rest fs1 with
      | none => none
      | some (trs, fs2) => some (tr :: trs, fs2)

/-- The output of a worker as the claim describes it: an idle event, then for
each item its actions followed by an idle event, then the completion
signal. -/
def workerOutput (ix : Nat) (trs : List (List Action)) : List Action :=
  [Action.send (idle ix)] ++ (trs.map (fun tr => tr ++ [Action.send (idle ix)])).flatten ++
    [Action.done]

/-- The cursor-positioning text that `showProgress` writes first. -/
def cursorUp (n : Nat) : GoString := ascii "\x1b[" ++ fmtInt n ++ ascii "A\x1b[0G"

/-- The line written for a slot whose event carries an error. -/
def errorLine (p : Progress) : GoString :=
  ascii "\x1b[0K\x1b[31m" ++ p.ErrorMsg ++ ascii "\x1b[0K\x1b[0m\n"

/-- The status line of slot `ix`. -/
def statusLine (rc : GoString → Nat) (ix : Nat) (p : Progress) : GoString :=
  ascii "\x1b[0K" ++ padLeft List.length 2 (fmtInt ix) ++ ascii ": " ++ p.String rc ++
    ascii "\n"

/-- The map the tag lines `key=value` stand for, line by line: the key with
its quotes replaced and lower-cased, the value with its quotes replaced. -/
def tagsOf (uni : GoString → GoString) : List (GoString × GoString) → Tags → Tags
  | [], tags => tags
  | (k, v) :: rest, tags =>
    tagsOf uni rest (tagSet tags (ToLower uni (replaceQuotes k)) (replaceQuotes v))

/-! ## Concrete inputs -/

/-- The configuration of the example: input root `/music/flac`, output root
`/music/mp3`. -/
def cfgMusic : Config := ⟨ascii "/music/flac", ascii "/music/mp3"⟩

/-- The source file of the example. -/
def songFlac : GoString := ascii "/music/flac/Artist/Song.flac"

/-- A filesystem holding the source file and nothing under the output root. -/
def fsMusic : FS :=
  ⟨[songFlac], [ascii "/music", ascii "/music/flac", ascii "/music/flac/Artist", ascii "/tmp"]⟩

/-- A filesystem in which `/music/mp3/Artist` is a regular file, so that
nothing can exist below it. -/
def fsBlocked : FS :=
  ⟨[songFlac, ascii "/music/mp3/Artist"],
   [ascii "/music", ascii "/music/flac", ascii "/music/flac/Artist", ascii "/music/mp3"]⟩

/-- A run in which every external command succeeds and all required tags are
there. -/
def envOk : Env :=
  { pipeFails := false, metaflacStart := none,
    metaflacOut := [ascii "ARTIST=Bob", ascii "title=Hi\"There", ascii "GENRE=Rock",
      ascii "Album=X", ascii "TRACKNUMBER=1", ascii "DATE=2016"],
    metaflacWait := none, tempFile := Except.ok (ascii "/tmp/cnv123"),
    flacStart := none, flacWait := none, lameStart := none, lameWait := none,
    lameOutput := true }

/-- The two tag lines of the example. -/
def envTwoTags : Env :=
  { envOk with metaflacOut := [ascii "ARTIST=Bob", ascii "title=Hi\"There"] }

/-- A tag whose value contains `=`. -/
def envComment : Env := { envOk with metaflacOut := [ascii "COMMENT=a=b"] }

/-- The tags of `envOk` without `date`. -/
def tagsNoDate : Tags :=
  [(ascii "artist", ascii "Bob"), (ascii "title", ascii "Hi"), (ascii "genre", ascii "Rock"),
   (ascii "album", ascii "X"), (ascii "tracknumber", ascii "1")]

/-! ## Library models: fuel and sanity checks -/

theorem cleanLoop_fuel (path : GoString) (rooted : Bool) :
    ∀ (f1 f2 r : Nat) (out : GoString) (dotdot : Nat),
      path.length - r ≤ f1 → path.length - r ≤ f2 →
      cleanLoop path rooted f1 r out dotdot = cleanLoop path rooted f2 r out dotdot := by
  intro f1
  induction f1 with
  | zero =>
    intro f2 r out dotdot h1 _
    cases f2 with
    | zero => rfl
    | succ f2 =>
      have hr : ¬ r < path.length := by omega
      simp [cleanLoop, hr]
  | succ f1 ih =>
    intro f2 r out dotdot h1 h2
    cases f2 with
    | zero =>
      have hr : ¬ r < path.length := by omega
      simp [cleanLoop, hr]
    | succ f2 =>
      by_cases hr : r < path.length
      · have e1 := ih f2 (r + 1) out dotdot (by omega) (by omega)
        have e2 := fun o d => ih f2 (r + 2) o d (by omega) (by omega)
        have hpos : 0 < ((path.drop r).takeWhile (fun c => decide (c ≠ bSlash))).length ∨
            path.getD r 0 = bSlash := by
          by_cases hs : path.getD r 0 = bSlash
          · exact Or.inr hs
          · left
            have hd : path.drop r = path.getD r 0 :: path.drop (r + 1) := by
              rw [List.getD_eq_getElem _ _ hr]
              exact List.drop_eq_getElem_cons hr
            rw [hd, List.takeWhile_cons]
            simp only [ne_eq, hs, not_false_eq_true, decide_True, if_true, List.length_cons]
            omega
        simp only [cleanLoop, hr, if_true]
        split
        · exact e1
        · split
          · exact e1
          · split
            · split
              · exact e2 _ _
              · split
                · exact e2 _ _
                · exact e2 _ _
            · rename_i hs _ _
              have hp := hpos.resolve_right hs
              exact ih f2 _ _ _ (by omega) (by omega)
      · simp [cleanLoop, hr]

theorem Ext_suffix_aux : ∀ (l acc : List Nat), (extScan l acc).length ≤ l.length + acc.length := by
  intro l
  induction l with
  | nil => intro acc; simp [extScan]
  | cons c rest ih =>
    intro acc
    simp only [extScan]
    split
    · simp
    · split
      · simp; omega
      · have := ih (c :: acc); simp at this ⊢; omega

theorem Ext_length_le (p : GoString) : (Ext p).length ≤ p.length := by
  have := Ext_suffix_aux p.reverse []
  simpa [Ext] using this

/-- C1: for a source path `P = R ++ rel ++ ext` under the input root `R`, with
`ext = filepath.Ext(P)`, `mp3name(P)` is `path.Join(O, rel ++ ".mp3")`: the
input root and the extension are stripped, `.mp3` is appended and the result
is joined under the output root `O`. -/
theorem mp3name_under_root (cfg : Config) (rel ext : GoString)
    (h : Ext (cfg.inputpath ++ rel ++ ext) = ext) :
    mp3name cfg (cfg.inputpath ++ rel ++ ext) =
      some (Join [cfg.outputpath, rel ++ ascii ".mp3"]) := by
  unfold mp3name
  simp only [h]
  have hl : (cfg.inputpath ++ rel ++ ext).length - ext.length =
      (cfg.inputpath ++ rel).length := by simp only [List.length_append]; omega
  rw [hl]
  have ht : ((cfg.inputpath ++ rel ++ ext).take (cfg.inputpath ++ rel).length).drop
      cfg.inputpath.length = rel := by
    rw [List.take_left]
    exact List.drop_left _ _
  have hc : cfg.inputpath.length ≤ (cfg.inputpath ++ rel).length ∧
      (cfg.inputpath ++ rel).length ≤ (cfg.inputpath ++ rel ++ ext).length := by
    simp only [List.length_append]; omega
  simp only [slice, hc, and_self, if_true, ht]

theorem mp3name_under_root_witness :
    Ext (ascii "/music/flac" ++ ascii "/Artist/Song" ++ ascii ".flac") = ascii ".flac" ∧
    mp3name ⟨ascii "/music/flac", ascii "/music/mp3"⟩
        (ascii "/music/flac" ++ ascii "/Artist/Song" ++ ascii ".flac") =
      some (ascii "/music/mp3/Artist/Song.mp3") :=
  ⟨by decide, (mp3name_under_root ⟨ascii "/music/flac", ascii "/music/mp3"⟩
      (ascii "/Artist/Song") (ascii ".flac") (by decide)).trans (by decide)⟩

theorem Clean_double_slash :
    Clean (ascii "/music/mp3//Artist/Song.mp3") = ascii "/music/mp3/Artist/Song.mp3" := by
  decide

theorem Clean_dotdot : Clean (ascii "a/b/../../../c/./d/") = ascii "../c/d" := by decide

theorem Clean_rooted_dotdot : Clean (ascii "/a/b/../../../c") = ascii "/c" := by decide

theorem Dir_song : Dir (ascii "/music/mp3/Artist/Song.mp3") = ascii "/music/mp3/Artist" := by
  decide

theorem Base_trailing_slash : Base (ascii "/music/flac/Artist/Song.flac/") = ascii "Song.flac" := by
  decide

theorem Ext_dot_in_directory : Ext (ascii "/music/fl.ac/Song") = [] := by decide

/-! ## Tags -/

theorem flacTags_two_lines (uni : GoString → GoString) (flacfile : GoString) :
    (flacTags uni envTwoTags flacfile).map (fun r => r.1) =
      some ([(ascii "artist", ascii "Bob"), (ascii "title", ascii "Hi'There")], none) := by
  rfl

/-- C2, evaluated on a tag line whose value contains `=`: for the line
`COMMENT=a=b` the map built by `flacTags` holds `a` under `comment`, not the
line's value `a=b`. -/
theorem flacTags_value_cut_at_eq (uni : GoString → GoString) (flacfile : GoString) :
    ascii "COMMENT=a=b" = ascii "COMMENT" ++ [bEq] ++ ascii "a=b" ∧
    (flacTags uni envComment flacfile).map (fun r => r.1) =
      some ([(ascii "comment", ascii "a")], none) ∧
    ascii "a" ≠ replaceQuotes (ascii "a=b") := by
  refine ⟨by decide, rfl, by decide⟩

/-! ## Encoding -/

theorem tagGet_eq_nil_iff (tags : Tags) (t : GoString) :
    tagGet tags t = [] ↔ tagMissing tags t := by
  unfold tagGet tagMissing
  cases h : tagFind tags t with
  | none => simp
  | some v => simp

theorem checkTags_none_iff (tags : Tags) (inf : GoString) (l : List GoString) :
    checkTags tags inf l = none ↔ ∀ t ∈ l, ¬ tagMissing tags t := by
  induction l with
  | nil => simp [checkTags]
  | cons t rest ih =>
    simp only [checkTags, List.length_eq_zero, List.mem_cons, forall_eq_or_imp,
      ← tagGet_eq_nil_iff]
    by_cases h : tagGet tags t = []
    · simp [h]
    · simp only [h, if_false, not_false_eq_true, true_and]
      rw [ih]
      simp only [← tagGet_eq_nil_iff]

theorem checkTags_some (tags : Tags) (inf : GoString) (l : List GoString) (e : GoError)
    (h : checkTags tags inf l = some e) :
    ∃ t ∈ l, tagMissing tags t ∧ e = missingTagError t inf := by
  induction l with
  | nil => simp [checkTags] at h
  | cons t rest ih =>
    simp only [checkTags, List.length_eq_zero] at h
    by_cases ht : tagGet tags t = []
    · simp only [ht, if_true, Option.some.injEq] at h
      exact ⟨t, List.mem_cons_self _ _, (tagGet_eq_nil_iff tags t).1 ht, h.symm⟩
    · simp only [ht, if_false] at h
      obtain ⟨u, hu, hm, he⟩ := ih h
      exact ⟨u, List.mem_cons_of_mem _ hu, hm, he⟩

theorem checkTags_missing (tags : Tags) (inf : GoString) (l : List GoString)
    (h : ∃ t ∈ l, tagMissing tags t) :
    ∃ t ∈ l, tagMissing tags t ∧ checkTags tags inf l = some (missingTagError t inf) := by
  cases hc : checkTags tags inf l with
  | none =>
    obtain ⟨t, ht, hm⟩ := h
    exact absurd hm ((checkTags_none_iff tags inf l).1 hc t ht)
  | some e =>
    obtain ⟨t, ht, hm, he⟩ := checkTags_some tags inf l e hc
    exact ⟨t, ht, hm, by rw [he]⟩

theorem MkdirAll_files (fs fs1 : FS) (p : GoString) (h : MkdirAll fs p = Except.ok fs1) :
    fs1.files = fs.files ∧ (∀ d ∈ fs.dirs, d ∈ fs1.dirs) ∧ fs1.isDir p = true := by
  unfold MkdirAll at h
  by_cases h1 : fs.isDir p = true
  · rw [if_pos h1] at h
    cases h
    exact ⟨rfl, fun _ hd => hd, h1⟩
  · rw [if_neg h1] at h
    by_cases h2 : p ∈ fs.files ∨ (ancestors p).any (fun a => decide (a ∈ fs.files)) = true
    · rw [if_pos h2] at h
      cases h
    · rw [if_neg h2] at h
      cases h
      refine ⟨rfl, fun d hd => List.mem_append_left _ hd, ?_⟩
      have h3 : fs.isDir p = false := by simpa using h1
      simp only [FS.isDir, decide_eq_true_eq, List.mem_append, List.mem_filter,
        List.mem_singleton, Bool.not_eq_true', decide_eq_false_iff_not]
      refine Or.inr (Or.inr (Or.inr ⟨Or.inr trivial, ?_⟩))
      simpa [FS.isDir] using h3

theorem encodeMp3_lameStarted_iff (env : Env) (fs : FS) (inf outf : GoString) (tags : Tags) :
    lameStarted (encodeMp3 env fs inf outf tags).2.2 ↔
      (∃ fs1, MkdirAll fs (Dir outf) = Except.ok fs1) ∧ ∀ t ∈ requiredTags, ¬ tagMissing tags t := by
  unfold lameStarted
  cases hm : MkdirAll fs (Dir outf) with
  | error e => simp [encodeMp3, hm]
  | ok fs1 =>
    cases hc : checkTags tags inf requiredTags with
    | some e =>
      have hn : ¬ ∀ t ∈ requiredTags, ¬ tagMissing tags t := by
        rw [← checkTags_none_iff tags inf]; simp [hc]
      simp [encodeMp3, hm, hc, hn]
    | none =>
      have hall := (checkTags_none_iff tags inf requiredTags).1 hc
      have hhead : (lameArgv inf outf tags).head? = some (ascii "lame") := rfl
      cases hs : env.lameStart with
      | some e => simpa [encodeMp3, hm, hc, hs, hhead] using hall
      | none => simpa [encodeMp3, hm, hc, hs, hhead] using hall

/-- C3: when one of the six required tags is absent or empty, `encodeMp3`
returns an error that is not nil and does not start the encoder; and the
encoder is started only when all six are present and not empty. -/
theorem encodeMp3_requires_tags (env : Env) (fs : FS) (inf outf : GoString) (tags : Tags) :
    ((∃ t ∈ requiredTags, tagMissing tags t) →
      (encodeMp3 env fs inf outf tags).1 ≠ none ∧
      ¬ lameStarted (encodeMp3 env fs inf outf tags).2.2) ∧
    (lameStarted (encodeMp3 env fs inf outf tags).2.2 →
      ∀ t ∈ requiredTags, ¬ tagMissing tags t) := by
  refine ⟨fun h => ⟨?_, ?_⟩, fun h => ((encodeMp3_lameStarted_iff env fs inf outf tags).1 h).2⟩
  · cases hm : MkdirAll fs (Dir outf) with
    | error e => simp [encodeMp3, hm]
    | ok fs1 =>
      obtain ⟨t, _, _, hc⟩ := checkTags_missing tags inf requiredTags h
      simp [encodeMp3, hm, hc]
  · intro hl
    obtain ⟨t, ht, hm⟩ := h
    exact ((encodeMp3_lameStarted_iff env fs inf outf tags).1 hl).2 t ht hm

set_option maxRecDepth 4000 in
theorem encodeMp3_requires_tags_witness :
    (∃ t ∈ requiredTags, tagMissing tagsNoDate t) ∧
    (encodeMp3 envOk fsMusic (ascii "/tmp/cnv123") (ascii "/music/mp3/Artist/Song.mp3")
      tagsNoDate).1 ≠ none ∧
    ¬ lameStarted (encodeMp3 envOk fsMusic (ascii "/tmp/cnv123")
      (ascii "/music/mp3/Artist/Song.mp3") tagsNoDate).2.2 :=
  ⟨⟨ascii "date", by decide, Or.inl (by decide)⟩,
   (encodeMp3_requires_tags envOk fsMusic (ascii "/tmp/cnv123")
      (ascii "/music/mp3/Artist/Song.mp3") tagsNoDate).1
      ⟨ascii "date", by decide, Or.inl (by decide)⟩⟩

set_option maxRecDepth 8000 in
/-- C10 fails as stated: with the tag `date` missing, `encodeMp3` returns the
validation error and has by then created the parent directory of the
destination, `/music/mp3/Artist`, which did not exist before. -/
theorem encodeMp3_creates_directory_before_validation :
    tagMissing tagsNoDate (ascii "date") ∧
    (encodeMp3 envOk fsMusic (ascii "/tmp/cnv123") (ascii "/music/mp3/Artist/Song.mp3")
      tagsNoDate).1 = some (missingTagError (ascii "date") (ascii "/tmp/cnv123")) ∧
    ascii "/music/mp3/Artist" ∉ fsMusic.dirs ∧
    ascii "/music/mp3/Artist" ∈ (encodeMp3 envOk fsMusic (ascii "/tmp/cnv123")
      (ascii "/music/mp3/Artist/Song.mp3") tagsNoDate).2.1.dirs ∧
    (encodeMp3 envOk fsMusic (ascii "/tmp/cnv123") (ascii "/music/mp3/Artist/Song.mp3")
      tagsNoDate).2.1 ≠ fsMusic := by
  refine ⟨Or.inl (by decide), by decide, by decide, by decide, by decide⟩

/-- C10, amended: when a required tag is missing, `encodeMp3` first runs
`os.MkdirAll` on the parent directory of the destination.  If that fails, its
error is returned and the filesystem is unchanged.  If it succeeds, the error
returned is the validation error naming a missing required tag, no command is
started, and the filesystem is the one `MkdirAll` left: the same regular
files, the parent directory now existing. -/
theorem encodeMp3_missing_tag_effects (env : Env) (fs : FS) (inf outf : GoString)
    (tags : Tags) (h : ∃ t ∈ requiredTags, tagMissing tags t) :
    (encodeMp3 env fs inf outf tags).2.2 = [] ∧
    (encodeMp3 env fs inf outf tags).2.1.files = fs.files ∧
    ((∃ e, MkdirAll fs (Dir outf) = Except.error e ∧
        encodeMp3 env fs inf outf tags = (some e, fs, [])) ∨
     (∃ fs1 t, MkdirAll fs (Dir outf) = Except.ok fs1 ∧ t ∈ requiredTags ∧
        tagMissing tags t ∧
        encodeMp3 env fs inf outf tags = (some (missingTagError t inf), fs1, []) ∧
        fs1.isDir (Dir outf) = true)) := by
  cases hm : MkdirAll fs (Dir outf) with
  | error e => simp [encodeMp3, hm]
  | ok fs1 =>
    obtain ⟨t, ht, hmiss, hc⟩ := checkTags_missing tags inf requiredTags h
    obtain ⟨hf, _, hd⟩ := MkdirAll_files fs fs1 (Dir outf) hm
    have he : encodeMp3 env fs inf outf tags = (some (missingTagError t inf), fs1, []) := by
      simp [encodeMp3, hm, hc]
    rw [he]
    exact ⟨rfl, hf, Or.inr ⟨fs1, t, rfl, ht, hmiss, rfl, hd⟩⟩

set_option maxRecDepth 8000 in
theorem encodeMp3_missing_tag_effects_witness :
    (∃ t ∈ requiredTags, tagMissing tagsNoDate t) ∧
    (encodeMp3 envOk fsMusic (ascii "/tmp/cnv123") (ascii "/music/mp3/Artist/Song.mp3")
      tagsNoDate).2.1.files = fsMusic.files :=
  ⟨⟨ascii "date", by decide, Or.inl (by decide)⟩,
   (encodeMp3_missing_tag_effects envOk fsMusic (ascii "/tmp/cnv123")
      (ascii "/music/mp3/Artist/Song.mp3") tagsNoDate
      ⟨ascii "date", by decide, Or.inl (by decide)⟩).2.1⟩

/-! ## Reading actions: basic facts -/

theorem events_append (a b : List Action) : events (a ++ b) = events a ++ events b := by
  simp [events, List.filterMap_append]

theorem calls_append (a b : List Action) : calls (a ++ b) = calls a ++ calls b := by
  simp [calls, List.filterMap_append]

theorem sendsAndCalls_append (a b : List Action) :
    sendsAndCalls (a ++ b) = sendsAndCalls a ++ sendsAndCalls b := by
  simp [sendsAndCalls, List.filter_append]

theorem onlyExec_events (tr : List Action) (h : onlyExec tr) : events tr = [] := by
  induction tr with
  | nil => rfl
  | cons a rest ih =>
    obtain ⟨argv, ha⟩ := h a (List.mem_cons_self _ _)
    subst ha
    have := ih (fun b hb => h b (List.mem_cons_of_mem _ hb))
    simpa [events] using this

theorem onlyExec_calls (tr : List Action) (h : onlyExec tr) : calls tr = [] := by
  induction tr with
  | nil => rfl
  | cons a rest ih =>
    obtain ⟨argv, ha⟩ := h a (List.mem_cons_self _ _)
    subst ha
    have := ih (fun b hb => h b (List.mem_cons_of_mem _ hb))
    simpa [calls] using this

theorem onlyExec_sendsAndCalls (tr : List Action) (h : onlyExec tr) :
    sendsAndCalls tr = [] := by
  induction tr with
  | nil => rfl
  | cons a rest ih =>
    obtain ⟨argv, ha⟩ := h a (List.mem_cons_self _ _)
    subst ha
    have := ih (fun b hb => h b (List.mem_cons_of_mem _ hb))
    simpa [sendsAndCalls] using this

theorem onlyExec_no_done (tr : List Action) (h : onlyExec tr) : Action.done ∉ tr := by
  intro hd
  obtain ⟨argv, ha⟩ := h _ hd
  cases ha

theorem flacTags_onlyExec (uni : GoString → GoString) (env : Env) (fn : GoString)
    (r : Tags × Option GoError) (tr : List Action)
    (h : flacTags uni env fn = some (r, tr)) : onlyExec tr := by
  have htr : tr = [Action.exec (metaflacArgv fn)] := by
    unfold flacTags at h
    cases hs : env.metaflacStart with
    | some e =>
      simp only [hs, Option.some.injEq, Prod.mk.injEq] at h
      exact h.2.symm
    | none =>
      simp only [hs] at h
      split at h
      · cases h
      · split at h
        · cases h
        · simp only [Option.some.injEq, Prod.mk.injEq] at h
          exact h.2.symm
  subst htr
  intro a ha
  exact ⟨_, List.mem_singleton.1 ha⟩

theorem decodeFlac_onlyExec (env : Env) (fs : FS) (fn : GoString) :
    onlyExec (decodeFlac env fs fn).2.2 := by
  unfold decodeFlac
  intro a ha
  split at ha
  · simp at ha
  · split at ha
    · exact ⟨_, List.mem_singleton.1 ha⟩
    · split at ha
      · exact ⟨_, List.mem_singleton.1 ha⟩
      · exact ⟨_, List.mem_singleton.1 ha⟩

theorem encodeMp3_onlyExec (env : Env) (fs : FS) (inf outf : GoString) (tags : Tags) :
    onlyExec (encodeMp3 env fs inf outf tags).2.2 := by
  intro a ha
  cases hm : MkdirAll fs (Dir outf) with
  | error e => simp [encodeMp3, hm] at ha
  | ok fs1 =>
    cases hc : checkTags tags inf requiredTags with
    | some e => simp [encodeMp3, hm, hc] at ha
    | none =>
      cases hs : env.lameStart with
      | some e =>
        simp only [encodeMp3, hm, hc, hs, List.mem_singleton] at ha
        exact ⟨_, ha⟩
      | none =>
        simp only [encodeMp3, hm, hc, hs, List.mem_singleton] at ha
        exact ⟨_, ha⟩

/-! ## The conversion pipeline -/

theorem events_sendsAndCalls (tr : List Action) : events (sendsAndCalls tr) = events tr := by
  induction tr with
  | nil => rfl
  | cons a rest ih =>
    cases a <;> simp_all [events, sendsAndCalls, List.filter_cons]

theorem calls_sendsAndCalls (tr : List Action) : calls (sendsAndCalls tr) = calls tr := by
  induction tr with
  | nil => rfl
  | cons a rest ih =>
    cases a <;> simp_all [calls, sendsAndCalls, List.filter_cons]

theorem sendsAndCalls_send (p : Progress) (t : List Action) :
    sendsAndCalls (Action.send p :: t) = Action.send p :: sendsAndCalls t := by
  simp [sendsAndCalls]

theorem sendsAndCalls_call (s : Stage) (t : List Action) :
    sendsAndCalls (Action.call s :: t) = Action.call s :: sendsAndCalls t := by
  simp [sendsAndCalls]

theorem sendsAndCalls_nil : sendsAndCalls [] = [] := rfl

/-- The shape of a run of `convertFile`: what it sends and which stages it
enters, by the first stage that fails. -/
theorem convertFile_shape (uni : GoString → GoString) (cfg : Config) (env : Env) (fs : FS)
    (ix : Nat) (fn : GoString) :
    match convertFile uni cfg env fs ix fn with
    | none => mp3name cfg fn = none ∨ flacTags uni env fn = none
    | some (tr, _) =>
      ∃ dest, mp3name cfg fn = some dest ∧
        match firstFailure uni cfg env fs fn with
        | some (Stage.tags, e) =>
          sendsAndCalls tr =
            [Action.send ⟨ix, fn, dest, ascii "Extracting tags", none⟩, Action.call Stage.tags,
             Action.send ⟨ix, fn, dest, ascii "Extracting tags", some e⟩]
        | some (Stage.decode, e) =>
          sendsAndCalls tr =
            [Action.send ⟨ix, fn, dest, ascii "Extracting tags", none⟩, Action.call Stage.tags,
             Action.send ⟨ix, fn, dest, ascii "Decode FLAC", none⟩, Action.call Stage.decode,
             Action.send ⟨ix, fn, dest, ascii "Decode FLAC", some e⟩]
        | some (Stage.encode, e) =>
          sendsAndCalls tr =
            [Action.send ⟨ix, fn, dest, ascii "Extracting tags", none⟩, Action.call Stage.tags,
             Action.send ⟨ix, fn, dest, ascii "Decode FLAC", none⟩, Action.call Stage.decode,
             Action.send ⟨ix, fn, dest, ascii "Encode MP3", none⟩, Action.call Stage.encode,
             Action.send ⟨ix, fn, dest, ascii "Encode MP3", some e⟩]
        | none =>
          sendsAndCalls tr =
            [Action.send ⟨ix, fn, dest, ascii "Extracting tags", none⟩, Action.call Stage.tags,
             Action.send ⟨ix, fn, dest, ascii "Decode FLAC", none⟩, Action.call Stage.decode,
             Action.send ⟨ix, fn, dest, ascii "Encode MP3", none⟩,
             Action.call Stage.encode] := by
  cases hm : mp3name cfg fn with
  | none => simp [convertFile, hm]
  | some dest =>
    cases ht : flacTags uni env fn with
    | none => simp [convertFile, hm, ht]
    | some r =>
      obtain ⟨⟨tags, oe⟩, tr1⟩ := r
      have h1 := onlyExec_sendsAndCalls tr1 (flacTags_onlyExec uni env fn _ _ ht)
      cases oe with
      | some e =>
        simp [convertFile, hm, ht, firstFailure, sendsAndCalls_append, sendsAndCalls_send,
            sendsAndCalls_call, sendsAndCalls_nil, h1]
      | none =>
        have h2 := onlyExec_sendsAndCalls _ (decodeFlac_onlyExec env fs fn)
        rcases hd : decodeFlac env fs fn with ⟨⟨wav, oe2⟩, fs2, tr2⟩
        rw [hd] at h2
        simp only at h2
        cases oe2 with
        | some e =>
          simp [convertFile, hm, ht, hd, firstFailure, sendsAndCalls_append, sendsAndCalls_send,
            sendsAndCalls_call, sendsAndCalls_nil, h1, h2]
        | none =>
          have h3 := onlyExec_sendsAndCalls _ (encodeMp3_onlyExec env fs2 wav dest tags)
          rcases he : encodeMp3 env fs2 wav dest tags with ⟨oe3, fs3, tr3⟩
          rw [he] at h3
          simp only at h3
          cases oe3 with
          | some e =>
            simp [convertFile, hm, ht, hd, he, firstFailure, sendsAndCalls_append, sendsAndCalls_send,
            sendsAndCalls_call, sendsAndCalls_nil, h1, h2, h3]
          | none =>
            simp [convertFile, hm, ht, hd, he, firstFailure, sendsAndCalls_append, sendsAndCalls_send,
            sendsAndCalls_call, sendsAndCalls_nil, h1, h2, h3]

/-- C4: the events published by `convertFile` contain one carrying an error
exactly when a stage fails; then there is exactly one such event, it is the
last thing published, after every stage entry, it carries the error of the
first failing stage, and the stages entered are those up to the failing one.
When no stage fails no event carries an error.  `convertFile` returns unless
`mp3name` or `flacTags` panics. -/
theorem convertFile_error_event (uni : GoString → GoString) (cfg : Config) (env : Env)
    (fs : FS) (ix : Nat) (fn : GoString) :
    match convertFile uni cfg env fs ix fn with
    | none => mp3name cfg fn = none ∨ flacTags uni env fn = none
    | some (tr, _) =>
      ((∃ p ∈ events tr, p.err ≠ none) ↔ firstFailure uni cfg env fs fn ≠ none) ∧
      (∀ s e, firstFailure uni cfg env fs fn = some (s, e) →
        ((events tr).filter (fun p => p.err.isSome)).length = 1 ∧
        (∃ p, (events tr).getLast? = some p ∧ p.err = some e ∧
          (sendsAndCalls tr).getLast? = some (Action.send p)) ∧
        calls tr = stagesThrough s) ∧
      (firstFailure uni cfg env fs fn = none →
        (∀ p ∈ events tr, p.err = none) ∧
        calls tr = [Stage.tags, Stage.decode, Stage.encode]) := by
  have hs := convertFile_shape uni cfg env fs ix fn
  cases hc : convertFile uni cfg env fs ix fn with
  | none => rw [hc] at hs; exact hs
  | some r =>
    obtain ⟨tr, fs1⟩ := r
    rw [hc] at hs
    obtain ⟨dest, _, hs⟩ := hs
    show ((∃ p ∈ events tr, p.err ≠ none) ↔ firstFailure uni cfg env fs fn ≠ none) ∧
      (∀ s e, firstFailure uni cfg env fs fn = some (s, e) →
        ((events tr).filter (fun p => p.err.isSome)).length = 1 ∧
        (∃ p, (events tr).getLast? = some p ∧ p.err = some e ∧
          (sendsAndCalls tr).getLast? = some (Action.send p)) ∧
        calls tr = stagesThrough s) ∧
      (firstFailure uni cfg env fs fn = none →
        (∀ p ∈ events tr, p.err = none) ∧
        calls tr = [Stage.tags, Stage.decode, Stage.encode])
    rw [← events_sendsAndCalls tr, ← calls_sendsAndCalls tr]
    cases hf : firstFailure uni cfg env fs fn with
    | none =>
      rw [hf] at hs
      simp only at hs
      rw [hs]
      simp [events, calls]
    | some se =>
      obtain ⟨s, e⟩ := se
      rw [hf] at hs
      cases s <;> simp only at hs <;> rw [hs] <;> simp [events, calls, stagesThrough]

/-- C5 fails as stated: in a run where all three stages succeed the stage
labels of the three events are `Extracting tags`, `Decode FLAC` and
`Encode MP3`, not `Extracting tags`, `Decode source` and `Encode target`. -/
theorem convertFile_stage_labels_differ :
    firstFailure id cfgMusic envOk fsMusic songFlac = none ∧
    (convertFile id cfgMusic envOk fsMusic 3 songFlac).map
        (fun r => (events r.1).map Progress.stage) =
      some [ascii "Extracting tags", ascii "Decode FLAC", ascii "Encode MP3"] ∧
    (convertFile id cfgMusic envOk fsMusic 3 songFlac).map
        (fun r => (events r.1).map Progress.stage) ≠
      some [ascii "Extracting tags", ascii "Decode source", ascii "Encode target"] := by
  have h : (convertFile id cfgMusic envOk fsMusic 3 songFlac).map
        (fun r => (events r.1).map Progress.stage) =
      some [ascii "Extracting tags", ascii "Decode FLAC", ascii "Encode MP3"] := by rfl
  refine ⟨by rfl, h, ?_⟩
  rw [h]
  decide

/-- C5, amended: for an item whose three stages all succeed, `convertFile`
publishes exactly three events, each before the entry into its stage and in
pipeline order, with the stage labels `Extracting tags`, `Decode FLAC` and
`Encode MP3`, each carrying the slot index, the source path and the
destination `mp3name(source)`, and none carrying an error. -/
theorem convertFile_success_events (uni : GoString → GoString) (cfg : Config) (env : Env)
    (fs : FS) (ix : Nat) (fn dest : GoString)
    (hm : mp3name cfg fn = some dest) (ht : flacTags uni env fn ≠ none)
    (hf : firstFailure uni cfg env fs fn = none) :
    ∃ tr fs1, convertFile uni cfg env fs ix fn = some (tr, fs1) ∧
      sendsAndCalls tr =
        [Action.send ⟨ix, fn, dest, ascii "Extracting tags", none⟩, Action.call Stage.tags,
         Action.send ⟨ix, fn, dest, ascii "Decode FLAC", none⟩, Action.call Stage.decode,
         Action.send ⟨ix, fn, dest, ascii "Encode MP3", none⟩, Action.call Stage.encode] ∧
      events tr =
        [⟨ix, fn, dest, ascii "Extracting tags", none⟩,
         ⟨ix, fn, dest, ascii "Decode FLAC", none⟩,
         ⟨ix, fn, dest, ascii "Encode MP3", none⟩] := by
  have hs := convertFile_shape uni cfg env fs ix fn
  cases hc : convertFile uni cfg env fs ix fn with
  | none =>
    rw [hc] at hs
    rcases hs with h | h
    · rw [hm] at h; cases h
    · exact absurd h ht
  | some r =>
    obtain ⟨tr, fs1⟩ := r
    rw [hc] at hs
    obtain ⟨d, hd, hs⟩ := hs
    rw [hm] at hd
    cases hd
    rw [hf] at hs
    simp only at hs
    refine ⟨tr, fs1, rfl, hs, ?_⟩
    rw [← events_sendsAndCalls tr, hs]
    simp [events]

theorem convertFile_success_events_witness :
    mp3name cfgMusic songFlac = some (ascii "/music/mp3/Artist/Song.mp3") ∧
    ∃ tr fs1, convertFile id cfgMusic envOk fsMusic 3 songFlac = some (tr, fs1) ∧
      events tr =
        [⟨3, songFlac, ascii "/music/mp3/Artist/Song.mp3", ascii "Extracting tags", none⟩,
         ⟨3, songFlac, ascii "/music/mp3/Artist/Song.mp3", ascii "Decode FLAC", none⟩,
         ⟨3, songFlac, ascii "/music/mp3/Artist/Song.mp3", ascii "Encode MP3", none⟩] := by
  have h := convertFile_success_events id cfgMusic envOk fsMusic 3 songFlac
    (ascii "/music/mp3/Artist/Song.mp3") (by rfl) (by rw [Ne, ← Option.not_isSome_iff_eq_none]; exact fun h => h (by rfl)) (by rfl)
  obtain ⟨tr, fs1, h1, _, h3⟩ := h
  exact ⟨by rfl, tr, fs1, h1, h3⟩

/-! ## The temporary file -/

theorem not_mem_remove (fs : FS) (p : GoString) : p ∉ (fs.remove p).files := by
  simp [FS.remove, List.mem_filter]

theorem mem_create (fs : FS) (p : GoString) : p ∈ (fs.create p).files := by
  unfold FS.create
  split
  · assumption
  · simp

theorem calls_send (p : Progress) (t : List Action) :
    calls (Action.send p :: t) = calls t := by
  simp [calls]

theorem calls_call (s : Stage) (t : List Action) :
    calls (Action.call s :: t) = s :: calls t := by
  simp [calls]

theorem calls_nil : calls [] = [] := rfl

theorem decodeFlac_failure (env : Env) (fs : FS) (fn name : GoString)
    (hn : env.tempFile = Except.ok name) (hf : (decodeFlac env fs fn).1.2 ≠ none) :
    name ∉ (decodeFlac env fs fn).2.1.files := by
  unfold decodeFlac at hf ⊢
  rw [hn] at hf ⊢
  cases hs : env.flacStart with
  | some e => simp only [hs]; exact not_mem_remove _ _
  | none =>
    cases hw : env.flacWait with
    | some e => simp only [hs, hw]; exact not_mem_remove _ _
    | none => simp [hs, hw] at hf

theorem decodeFlac_success (env : Env) (fs : FS) (fn name : GoString)
    (hn : env.tempFile = Except.ok name) (hf : (decodeFlac env fs fn).1.2 = none) :
    (decodeFlac env fs fn).1.1 = name ∧ name ∈ (decodeFlac env fs fn).2.1.files := by
  unfold decodeFlac at hf ⊢
  rw [hn] at hf ⊢
  cases hs : env.flacStart with
  | some e => simp [hs] at hf
  | none =>
    cases hw : env.flacWait with
    | some e => simp [hs, hw] at hf
    | none => simp only [hs, hw]; exact ⟨trivial, mem_create _ _⟩

/-- C6: the temporary file that `decodeFlac` creates does not exist when
`convertFile` returns.  When decoding fails `decodeFlac` has removed it; when
decoding succeeds `decodeFlac` returns its name and `convertFile` removes it
on return, whether encoding succeeds or fails.  `convertFile` returns unless
`mp3name` or `flacTags` panics. -/
theorem temp_file_removed (uni : GoString → GoString) (cfg : Config) (env : Env) (fs : FS)
    (ix : Nat) (fn name : GoString) (hn : env.tempFile = Except.ok name) :
    ((decodeFlac env fs fn).1.2 ≠ none → name ∉ (decodeFlac env fs fn).2.1.files) ∧
    ((decodeFlac env fs fn).1.2 = none →
      (decodeFlac env fs fn).1.1 = name ∧ name ∈ (decodeFlac env fs fn).2.1.files) ∧
    (match convertFile uni cfg env fs ix fn with
     | none => mp3name cfg fn = none ∨ flacTags uni env fn = none
     | some (tr, fs1) => Stage.decode ∈ calls tr → name ∉ fs1.files) := by
  refine ⟨decodeFlac_failure env fs fn name hn, decodeFlac_success env fs fn name hn, ?_⟩
  cases hm : mp3name cfg fn with
  | none => simp [convertFile, hm]
  | some dest =>
    cases ht : flacTags uni env fn with
    | none => simp [convertFile, hm, ht]
    | some r =>
      obtain ⟨⟨tags, oe⟩, tr1⟩ := r
      have h1 := onlyExec_calls tr1 (flacTags_onlyExec uni env fn _ _ ht)
      cases oe with
      | some e =>
        simp [convertFile, hm, ht, calls_append, calls_send, calls_call, calls_nil, h1]
      | none =>
        have hfail := decodeFlac_failure env fs fn name hn
        have hsucc := decodeFlac_success env fs fn name hn
        rcases hd : decodeFlac env fs fn with ⟨⟨wav, oe2⟩, fs2, tr2⟩
        rw [hd] at hfail hsucc
        cases oe2 with
        | some e =>
          have hnot : name ∉ fs2.files := hfail (by simp)
          simp only [convertFile, hm, ht, hd]
          exact fun _ => hnot
        | none =>
          have hw : wav = name := (hsucc rfl).1
          subst hw
          rcases he : encodeMp3 env fs2 wav dest tags with ⟨oe3, fs3, tr3⟩
          cases oe3 with
          | some e =>
            simp only [convertFile, hm, ht, hd, he]
            exact fun _ => not_mem_remove _ _
          | none =>
            simp only [convertFile, hm, ht, hd, he]
            exact fun _ => not_mem_remove _ _

theorem temp_file_removed_witness :
    envOk.tempFile = Except.ok (ascii "/tmp/cnv123") ∧
    (match convertFile id cfgMusic envOk fsMusic 3 songFlac with
     | none => mp3name cfgMusic songFlac = none ∨ flacTags id envOk songFlac = none
     | some (tr, fs1) => Stage.decode ∈ calls tr → ascii "/tmp/cnv123" ∉ fs1.files) :=
  ⟨rfl, (temp_file_removed id cfgMusic envOk fsMusic 3 songFlac (ascii "/tmp/cnv123") rfl).2.2⟩

/-! ## The directory walk -/

theorem Stat_notExist_iff (fs : FS) (p : GoString) :
    Stat fs p = StatResult.notExist ↔
      p ∉ fs.files ∧ fs.isDir p = false ∧ ∀ a ∈ ancestors p, a ∉ fs.files := by
  unfold Stat
  by_cases h1 : (ancestors p).any (fun a => decide (a ∈ fs.files)) = true
  · rw [if_pos h1]
    have : ¬ ∀ a ∈ ancestors p, a ∉ fs.files := by
      simp only [List.any_eq_true, decide_eq_true_eq] at h1
      obtain ⟨a, ha, hf⟩ := h1
      exact fun h => h a ha hf
    simp [this]
  · rw [if_neg h1]
    have hall : ∀ a ∈ ancestors p, a ∉ fs.files := by
      simp only [List.any_eq_true, decide_eq_true_eq, not_exists, not_and] at h1
      exact h1
    by_cases h2 : p ∈ fs.files ∨ fs.isDir p = true
    · rw [if_pos h2]
      rcases h2 with h2 | h2
      · simp [h2]
      · simp [h2]
    · rw [if_neg h2]
      simp only [not_or, Bool.not_eq_true] at h2
      simp only [true_iff]
      exact ⟨h2.1, h2.2, hall⟩

/-- C7 fails as stated: the source has the extension `.flac`, nothing exists
at its destination `/music/mp3/Artist/Song.mp3`, and `walker` does not enqueue
it, because `os.Stat` fails with an error other than not-exist
(`/music/mp3/Artist` is a regular file). -/
theorem walker_skips_when_stat_fails :
    ToLower id (Ext songFlac) = ascii ".flac" ∧
    mp3name cfgMusic songFlac = some (ascii "/music/mp3/Artist/Song.mp3") ∧
    ascii "/music/mp3/Artist/Song.mp3" ∉ fsBlocked.files ∧
    fsBlocked.isDir (ascii "/music/mp3/Artist/Song.mp3") = false ∧
    Stat fsBlocked (ascii "/music/mp3/Artist/Song.mp3") = StatResult.otherError ∧
    walker id cfgMusic fsBlocked songFlac false none = some ([], none) := by
  refine ⟨by rfl, by rfl, by decide, by rfl, by rfl, by rfl⟩

/-- C7, amended: for an entry delivered without error, `walker` enqueues the
path exactly when the entry is not a directory, its extension lower-cased is
`.flac`, and `os.Stat` of `mp3name(path)` fails with a not-exist error, which
is when nothing exists at the destination and no ancestor of the destination
is a regular file.  A source whose destination exists is never enqueued.
`walker` returns nil, and panics only where `mp3name` does. -/
theorem walker_enqueues_iff (uni : GoString → GoString) (cfg : Config) (fs : FS)
    (path : GoString) (isDir : Bool) :
    match walker uni cfg fs path isDir none with
    | none => isDir = false ∧ ToLower uni (Ext path) = ascii ".flac" ∧ mp3name cfg path = none
    | some (sent, ret) =>
      ret = none ∧ (sent = [path] ∨ sent = []) ∧
      (path ∈ sent ↔ isDir = false ∧ ToLower uni (Ext path) = ascii ".flac" ∧
        ∃ ofile, mp3name cfg path = some ofile ∧
          ofile ∉ fs.files ∧ fs.isDir ofile = false ∧ ∀ a ∈ ancestors ofile, a ∉ fs.files) ∧
      (∀ ofile, mp3name cfg path = some ofile →
        (ofile ∈ fs.files ∨ fs.isDir ofile = true) → sent = []) := by
  cases isDir with
  | true =>
    have hw : walker uni cfg fs path true none = some ([], none) := by simp [walker]
    rw [hw]
    exact ⟨rfl, Or.inr rfl, by simp, fun _ _ _ => rfl⟩
  | false =>
    by_cases hx : ToLower uni (Ext path) = ascii ".flac"
    · cases hm : mp3name cfg path with
      | none =>
        have hw : walker uni cfg fs path false none = none := by simp [walker, hx, hm]
        rw [hw]
        exact ⟨rfl, hx, rfl⟩
      | some ofile =>
        by_cases hs : Stat fs ofile = StatResult.notExist
        · have hs2 := (Stat_notExist_iff fs ofile).1 hs
          have hw : walker uni cfg fs path false none = some ([path], none) := by
            simp [walker, hx, hm, hs]
          rw [hw]
          refine ⟨rfl, Or.inl rfl, ?_, ?_⟩
          · simp only [List.mem_singleton, true_iff]
            exact ⟨trivial, hx, ofile, rfl, hs2⟩
          · intro o ho hex
            cases ho
            rcases hex with hex | hex
            · exact absurd hex hs2.1
            · rw [hs2.2.1] at hex; cases hex
        · have hs2 : ¬ (ofile ∉ fs.files ∧ fs.isDir ofile = false ∧
              ∀ a ∈ ancestors ofile, a ∉ fs.files) :=
            fun h => hs ((Stat_notExist_iff fs ofile).2 h)
          have hw : walker uni cfg fs path false none = some ([], none) := by
            simp [walker, hx, hm, hs]
          rw [hw]
          refine ⟨rfl, Or.inr rfl, ?_, fun _ _ _ => rfl⟩
          simp only [List.not_mem_nil, false_iff]
          rintro ⟨_, _, o, ho, h⟩
          cases ho
          exact hs2 h
    · have hw : walker uni cfg fs path false none = some ([], none) := by
        simp [walker, hx]
      rw [hw]
      refine ⟨rfl, Or.inr rfl, ?_, fun _ _ _ => rfl⟩
      simp only [List.not_mem_nil, false_iff]
      rintro ⟨_, h, _⟩
      exact hx h

/-! ## The worker -/

theorem convertLoop_eq (uni : GoString → GoString) (cfg : Config) (ix : Nat) (prog : Progress) :
    ∀ (items : List (GoString × Env)) (fs : FS) (log : List Action),
      convertLoop uni cfg ix prog items fs log =
        (runItems uni cfg ix items fs).map (fun r =>
          (log ++ (r.1.map (fun tr => tr ++ [Action.send prog])).flatten ++ [Action.done],
            r.2)) := by
  intro items
  induction items with
  | nil => intro fs log; simp [convertLoop, runItems]
  | cons item rest ih =>
    intro fs log
    obtain ⟨file, env⟩ := item
    cases hc : convertFile uni cfg env fs ix file with
    | none => simp [convertLoop, runItems, hc]
    | some r =>
      obtain ⟨tr, fs1⟩ := r
      simp only [convertLoop, runItems, hc]
      rw [ih fs1]
      cases hr : runItems uni cfg ix rest fs1 with
      | none => simp
      | some q => simp [List.append_assoc]

theorem convertFile_no_done (uni : GoString → GoString) (cfg : Config) (env : Env) (fs : FS)
    (ix : Nat) (fn : GoString) (tr : List Action) (fs1 : FS)
    (h : convertFile uni cfg env fs ix fn = some (tr, fs1)) : Action.done ∉ tr := by
  intro hd
  have hd2 : Action.done ∈ sendsAndCalls tr := by
    simp [sendsAndCalls, List.mem_filter, hd]
  have hs := convertFile_shape uni cfg env fs ix fn
  rw [h] at hs
  obtain ⟨dest, _, hs⟩ := hs
  cases hf : firstFailure uni cfg env fs fn with
  | none =>
    rw [hf] at hs
    simp only at hs
    rw [hs] at hd2
    simp at hd2
  | some se =>
    obtain ⟨s, e⟩ := se
    rw [hf] at hs
    cases s <;> simp only at hs <;> rw [hs] at hd2 <;> simp at hd2

theorem runItems_no_done (uni : GoString → GoString) (cfg : Config) (ix : Nat) :
    ∀ (items : List (GoString × Env)) (fs : FS) (trs : List (List Action)) (fs1 : FS),
      runItems uni cfg ix items fs = some (trs, fs1) → ∀ tr ∈ trs, Action.done ∉ tr := by
  intro items
  induction items with
  | nil =>
    intro fs trs fs1 h
    simp only [runItems, Option.some.injEq, Prod.mk.injEq] at h
    obtain ⟨h1, _⟩ := h
    subst h1
    simp
  | cons item rest ih =>
    intro fs trs fs1 h
    obtain ⟨file, env⟩ := item
    cases hc : convertFile uni cfg env fs ix file with
    | none => simp [runItems, hc] at h
    | some r =>
      obtain ⟨tr, fs2⟩ := r
      cases hr : runItems uni cfg ix rest fs2 with
      | none => simp [runItems, hc, hr] at h
      | some q =>
        obtain ⟨trs2, fs3⟩ := q
        simp only [runItems, hc, hr, Option.some.injEq, Prod.mk.injEq] at h
        obtain ⟨h1, _⟩ := h
        subst h1
        intro t ht
        rcases List.mem_cons.1 ht with ht | ht
        · subst ht
          exact convertFile_no_done uni cfg env fs ix file _ _ hc
        · exact ih fs2 trs2 fs3 hr t ht

theorem workerOutput_done (ix : Nat) (trs : List (List Action))
    (h : ∀ tr ∈ trs, Action.done ∉ tr) :
    (workerOutput ix trs).count Action.done = 1 ∧
      (workerOutput ix trs).getLast? = some Action.done := by
  unfold workerOutput
  refine ⟨?_, List.getLast?_concat _⟩
  have hmid : Action.done ∉
      (trs.map (fun tr => tr ++ [Action.send (idle ix)])).flatten := by
    intro hm
    simp only [List.mem_flatten, List.mem_map] at hm
    obtain ⟨l, ⟨tr, htr, hl⟩, hin⟩ := hm
    subst hl
    rcases List.mem_append.1 hin with h1 | h1
    · exact h tr htr h1
    · simp at h1
  rw [List.count_append, List.count_append, List.count_eq_zero_of_not_mem hmid]
  simp [List.count_cons]

/-- C8: a worker of slot `ix` that receives the items `x1..xk` and then finds
the queue closed performs: one idle event for slot `ix` (empty stage), then
for each item in order the actions of `convertFile(ix, xj)` followed by one
idle event for slot `ix`, then one completion signal, which is the last thing
it does and the only completion signal.  The items are processed one after
the other, each on the filesystem its predecessor left.  The worker returns
unless `convertFile` panics on an item. -/
theorem convert_output (uni : GoString → GoString) (cfg : Config) (ix : Nat)
    (items : List (GoString × Env)) (fs : FS) :
    convert uni cfg ix items fs =
      (runItems uni cfg ix items fs).map (fun r => (workerOutput ix r.1, r.2)) ∧
    idle ix = ⟨ix, [], [], [], none⟩ ∧
    (∀ out fs1, convert uni cfg ix items fs = some (out, fs1) →
      out.count Action.done = 1 ∧ out.getLast? = some Action.done) := by
  have heq : convert uni cfg ix items fs =
      (runItems uni cfg ix items fs).map (fun r => (workerOutput ix r.1, r.2)) := by
    unfold convert
    rw [convertLoop_eq]
    rfl
  refine ⟨heq, rfl, ?_⟩
  intro out fs1 h
  rw [heq] at h
  cases hr : runItems uni cfg ix items fs with
  | none => rw [hr] at h; cases h
  | some q =>
    obtain ⟨trs, fs2⟩ := q
    rw [hr] at h
    simp only [Option.map_some', Option.some.injEq, Prod.mk.injEq] at h
    obtain ⟨h1, _⟩ := h
    subst h1
    exact workerOutput_done ix trs (runItems_no_done uni cfg ix items fs trs fs2 hr)

/-! ## Rendering -/

theorem showErrors_eq : ∀ (l : List Progress) (out : GoString),
    showErrors l out = out ++ ((l.filter (fun q => q.err.isSome)).map errorLine).flatten := by
  intro l
  induction l with
  | nil => intro out; simp [showErrors]
  | cons q rest ih =>
    intro out
    cases he : q.err with
    | none => simp [showErrors, he, ih, List.filter_cons]
    | some e => simp [showErrors, he, ih, List.filter_cons, errorLine, List.append_assoc]

theorem showStatus_eq (rc : GoString → Nat) : ∀ (l : List Progress) (ix : Nat) (out : GoString),
    showStatus rc l ix out =
      out ++ ((l.enumFrom ix).map (fun iq => statusLine rc iq.1 iq.2)).flatten := by
  intro l
  induction l with
  | nil => intro ix out; simp [showStatus]
  | cons q rest ih =>
    intro ix out
    simp [showStatus, ih, statusLine, List.append_assoc]

theorem String_idle_iff (rc : GoString → Nat) (q : Progress) :
    q.String rc = ascii "Idle" ↔ q.stage = [] := by
  constructor
  · intro h
    by_contra hne
    have hl : ¬ q.stage.length = 0 := fun h0 => hne (List.length_eq_zero.1 h0)
    have hesc : 27 ∈ q.String rc := by
      unfold Progress.String
      rw [if_neg hl]
      have : 27 ∈ ascii " \x1b[32m" := by decide
      simp [List.mem_append, this]
    rw [h] at hesc
    revert hesc
    decide
  · intro h
    simp [Progress.String, h]

theorem String_busy (rc : GoString → Nat) (q : Progress) (h : q.stage ≠ []) :
    Base q.file <+: q.String rc ∧ q.stage <:+: q.String rc := by
  have hl : ¬ q.stage.length = 0 := fun h0 => h (List.length_eq_zero.1 h0)
  unfold Progress.String
  rw [if_neg hl]
  constructor
  · refine ⟨List.replicate (60 - rc (Base q.file)) bSpace ++ ascii " \x1b[32m" ++
      padLeft rc 15 q.stage ++ ascii "\x1b[0m", ?_⟩
    simp [padRight, List.append_assoc]
  · refine ⟨padRight rc 60 (Base q.file) ++ ascii " \x1b[32m" ++
      List.replicate (15 - rc q.stage) bSpace, ascii "\x1b[0m", ?_⟩
    simp [padLeft, List.append_assoc]

/-- C9: the text written by `showProgress` is the cursor-positioning prefix,
then one error line for each slot whose event carries an error, in slot order,
then one status line for each slot, in slot order from 0; so no error line
follows a status line.  The body of a status line is `Idle` exactly when the
stage of the slot is empty, and otherwise begins with the base name of the
source file and contains the stage label. -/
theorem showProgress_layout (rc : GoString → Nat) (p : List Progress) :
    showProgress rc p =
      cursorUp p.length ++ ((p.filter (fun q => q.err.isSome)).map errorLine).flatten ++
        (p.enum.map (fun iq => statusLine rc iq.1 iq.2)).flatten ∧
    (p.enum.map (fun iq => statusLine rc iq.1 iq.2)).length = p.length ∧
    p.enum.map (fun iq => iq.1) = List.range p.length ∧
    (∀ (i : Nat) (q : Progress), statusLine rc i q =
      ascii "\x1b[0K" ++ padLeft List.length 2 (fmtInt i) ++ ascii ": " ++ q.String rc ++
        ascii "\n") ∧
    (∀ q : Progress, (q.String rc = ascii "Idle" ↔ q.stage = []) ∧
      (q.stage ≠ [] → Base q.file <+: q.String rc ∧ q.stage <:+: q.String rc)) := by
  refine ⟨?_, by simp, ?_, fun _ _ => rfl,
    fun q => ⟨String_idle_iff rc q, String_busy rc q⟩⟩
  · unfold showProgress
    rw [showStatus_eq, showErrors_eq]
    rfl
  · rw [List.enum_map_fst]

set_option maxRecDepth 100000 in
theorem showProgress_sample :
    showProgress List.length
      [⟨0, ascii "/a/b.flac", [], ascii "Decode FLAC", none⟩,
       ⟨1, ascii "/a/c.flac", [], ascii "Encode MP3", some (ascii "boom")⟩,
       idle 2] =
    ascii "\x1b[3A\x1b[0G\x1b[0K\x1b[31m/a/c.flac ERROR: boom\x1b[0K\x1b[0m\n" ++
      ascii "\x1b[0K 0: b.flac                                                       " ++
      ascii "\x1b[32m    Decode FLAC\x1b[0m\n" ++
      ascii "\x1b[0K 1: c.flac                                                       " ++
      ascii "\x1b[32m     Encode MP3\x1b[0m\n\x1b[0K 2: Idle\n" := by
  decide

/-! ## Tag lines in general -/

theorem Split_no_sep (sep : Nat) : ∀ (s : GoString), sep ∉ s → Split sep s = [s] := by
  intro s
  induction s with
  | nil => intro _; rfl
  | cons c cs ih =>
    intro h
    have hc : c ≠ sep := fun e => h (by simp [e])
    have hcs : sep ∉ cs := fun e => h (List.mem_cons_of_mem _ e)
    simp [Split, hc, ih hcs]

theorem Split_key (sep : Nat) (rest : GoString) : ∀ (k : GoString), sep ∉ k →
    Split sep (k ++ sep :: rest) = k :: Split sep rest := by
  intro k
  induction k with
  | nil => intro _; simp [Split]
  | cons c cs ih =>
    intro h
    have hc : c ≠ sep := fun e => h (by simp [e])
    have hcs : sep ∉ cs := fun e => h (List.mem_cons_of_mem _ e)
    simp [Split, hc, ih hcs]

theorem replaceQuotes_no_eq (s : GoString) (h : bEq ∉ s) : bEq ∉ replaceQuotes s := by
  intro hm
  simp only [replaceQuotes, List.mem_map] at hm
  obtain ⟨c, hc, he⟩ := hm
  by_cases hq : c = bDQuote
  · rw [if_pos hq] at he
    revert he
    decide
  · rw [if_neg hq] at he
    exact h (he ▸ hc)

theorem replaceQuotes_line (k v : GoString) :
    replaceQuotes (k ++ bEq :: v) = replaceQuotes k ++ bEq :: replaceQuotes v := by
  have h : (if bEq = bDQuote then bSQuote else bEq) = bEq := by decide
  simp [replaceQuotes, h]

/-- On lines `key=value` whose keys and values contain no `=`, the scanner
loop of `flacTags` builds the map of `tagsOf`. -/
theorem tagLoop_key_value (uni : GoString → GoString) :
    ∀ (kvs : List (GoString × GoString)) (tags : Tags),
      (∀ kv ∈ kvs, bEq ∉ kv.1 ∧ bEq ∉ kv.2) →
      tagLoop uni (kvs.map (fun kv => kv.1 ++ bEq :: kv.2)) tags =
        some (tagsOf uni kvs tags) := by
  intro kvs
  induction kvs with
  | nil => intro tags _; rfl
  | cons kv rest ih =>
    intro tags h
    obtain ⟨k, v⟩ := kv
    have hk := (h (k, v) (List.mem_cons_self _ _)).1
    have hv := (h (k, v) (List.mem_cons_self _ _)).2
    have hs : Split bEq (replaceQuotes (k ++ bEq :: v)) = [replaceQuotes k, replaceQuotes v] := by
      rw [replaceQuotes_line, Split_key bEq _ _ (replaceQuotes_no_eq k hk),
        Split_no_sep bEq _ (replaceQuotes_no_eq v hv)]
    simp only [List.map_cons, tagLoop, hs, tagsOf]
    exact ih _ (fun kv hkv => h kv (List.mem_cons_of_mem _ hkv))

/-- A line without `=` makes `flacTags` panic on `tag[1]`. -/
theorem tagLoop_no_eq (uni : GoString → GoString) (line : GoString) (rest : List GoString)
    (tags : Tags) (h : bEq ∉ line) : tagLoop uni (line :: rest) tags = none := by
  have hs : Split bEq (replaceQuotes line) = [replaceQuotes line] :=
    Split_no_sep bEq _ (replaceQuotes_no_eq line h)
  simp [tagLoop, hs]

theorem tagFind_tagSet (m : Tags) (k v key : GoString) :
    tagFind (tagSet m k v) key = if k = key then some v else tagFind m key := by
  unfold tagSet
  induction m with
  | nil => simp [tagFind]
  | cons kv rest ih =>
    obtain ⟨k1, v1⟩ := kv
    by_cases h1 : k1 = k
    · subst h1
      by_cases h2 : k1 = key
      · simpa [List.filter_cons, tagFind, h2] using ih
      · simpa [List.filter_cons, tagFind, h2] using ih
    · by_cases h2 : k1 = key
      · subst h2
        have h3 : ¬ k = k1 := fun e => h1 e.symm
        simp [List.filter_cons, tagFind, h1, h3]
      · simpa [List.filter_cons, tagFind, h1, h2] using ih

/-! ## When the pipeline panics -/

/-- The slice in `mp3name` is out of range exactly when the path without its
extension is shorter than the input root. -/
theorem mp3name_eq_none_iff (cfg : Config) (fn : GoString) :
    mp3name cfg fn = none ↔ fn.length - (Ext fn).length < cfg.inputpath.length := by
  unfold mp3name slice
  by_cases h : cfg.inputpath.length ≤ fn.length - (Ext fn).length
  · have hc : cfg.inputpath.length ≤ fn.length - (Ext fn).length ∧
        fn.length - (Ext fn).length ≤ fn.length := ⟨h, Nat.sub_le _ _⟩
    simp only [hc, and_self, if_true]
    constructor
    · intro h1; cases h1
    · intro h1; omega
  · have hc : ¬ (cfg.inputpath.length ≤ fn.length - (Ext fn).length ∧
        fn.length - (Ext fn).length ≤ fn.length) := fun h1 => h h1.1
    simp only [hc, if_false, true_iff]
    omega

/-- The function `flacTags` panics exactly when metaflac starts and either its
pipe is nil or the scanner loop meets a line without `=`. -/
theorem flacTags_eq_none_iff (uni : GoString → GoString) (env : Env) (fn : GoString) :
    flacTags uni env fn = none ↔
      env.metaflacStart = none ∧
        (env.pipeFails = true ∨ tagLoop uni env.metaflacOut [] = none) := by
  unfold flacTags
  cases hs : env.metaflacStart with
  | some e => simp
  | none =>
    cases hp : env.pipeFails with
    | true => simp
    | false =>
      cases ht : tagLoop uni env.metaflacOut [] with
      | none => simp
      | some tags => simp


end Flacjack
